import Mathlib

/-!
# Verification of the pycramfs Cramfs decoder

Shallow embedding of the pycramfs library (a read-only Cramfs image
decoder) and proofs about its claims.  Bytes are modelled as `Nat`
(values `< 256` where it matters), streams as explicit state records,
and fallible code as `Option`/`Except`.
-/

namespace Pycramfs

/-! ## Constants (`pycramfs/const.py`) -/

def MAGIC : Nat := 0x28CD3D45

/-- The bytes of `"Compressed ROMFS"` (also the ASCII code points of the
`SIGNATURE` string constant). -/
def SIGNATURE_BYTES : List Nat :=
  [0x43, 0x6F, 0x6D, 0x70, 0x72, 0x65, 0x73, 0x73,
   0x65, 0x64, 0x20, 0x52, 0x4F, 0x4D, 0x46, 0x53]

/-- `0xFF | HOLES | WRONG_SIGNATURE | SHIFTED_ROOT_OFFSET | EXT_BLOCK_POINTERS`.
Because `Flag` members appear on the right of the first `|`, the
reflected `Flag.__ror__` wins and the constant is an `IntFlag`
pseudo-member of value `0xFFF`, not a plain int. -/
def SUPPORTED_FLAGS : Nat := 0xFFF

/-- `Flag._all_bits_`: all bits up to the highest declared flag
(`EXT_BLOCK_POINTERS = 0x800`). -/
def FLAG_ALL_BITS : Nat := 0xFFF

/-- Python 3.11 `Flag.__invert__` on the (KEEP-boundary) `IntFlag`
class: the bitwise complement reduced into the class's `_all_bits_`
range, i.e. `(~v) & 0xFFF` — **not** the unbounded-int two's
complement.  Written with XOR/AND (equal to
`Nat.ldiff FLAG_ALL_BITS v` since the mask is contiguous ones).  In
particular `~SUPPORTED_FLAGS = Flag(0)`. -/
def flagInvert (v : Nat) : Nat := FLAG_ALL_BITS ^^^ (v &&& FLAG_ALL_BITS)

def PAGE_SIZE : Nat := 4096

def CRC_OFFSET : Nat := 32

def CRC_SIZE : Nat := 4

/-- `MAGIC.to_bytes(4, "little")`. -/
def MAGIC_BYTES : List Nat := [0x45, 0x3D, 0xCD, 0x28]

/-! ## UTF-8 decoding

Python's `bytes.decode()` performs strict UTF-8 decoding: rejects
continuation-only leads, overlong forms, surrogates and values above
`U+10FFFF`.  Returns the decoded code points. -/

def utf8Decode : List Nat → Option (List Nat)
  | [] => some []
  | b :: bs =>
    if b < 0x80 then (utf8Decode bs).map (b :: ·)
    else if b < 0xC2 then none
    else if b ≤ 0xDF then
      match bs with
      | b1 :: bs1 =>
        if 0x80 ≤ b1 ∧ b1 ≤ 0xBF then
          (utf8Decode bs1).map (((b - 0xC0) * 0x40 + (b1 - 0x80)) :: ·)
        else none
      | [] => none
    else if b ≤ 0xEF then
      match bs with
      | b1 :: b2 :: bs2 =>
        let lo1 := if b = 0xE0 then 0xA0 else 0x80
        let hi1 := if b = 0xED then 0x9F else 0xBF
        if lo1 ≤ b1 ∧ b1 ≤ hi1 ∧ 0x80 ≤ b2 ∧ b2 ≤ 0xBF then
          (utf8Decode bs2).map
            (((b - 0xE0) * 0x1000 + (b1 - 0x80) * 0x40 + (b2 - 0x80)) :: ·)
        else none
      | _ => none
    else if b ≤ 0xF4 then
      match bs with
      | b1 :: b2 :: b3 :: bs3 =>
        let lo1 := if b = 0xF0 then 0x90 else 0x80
        let hi1 := if b = 0xF4 then 0x8F else 0xBF
        if lo1 ≤ b1 ∧ b1 ≤ hi1 ∧ 0x80 ≤ b2 ∧ b2 ≤ 0xBF ∧ 0x80 ≤ b3 ∧ b3 ≤ 0xBF then
          (utf8Decode bs3).map
            (((b - 0xF0) * 0x40000 + (b1 - 0x80) * 0x1000 +
              (b2 - 0x80) * 0x40 + (b3 - 0x80)) :: ·)
        else none
      | _ => none
    else none

/-- ctypes `c_char * n` field access: the bytes up to (excluding) the
first NUL byte. -/
def cCharValue (bs : List Nat) : List Nat := bs.takeWhile (· ≠ 0)

/-! ## Superblock record (`pycramfs/structure.py`, class `Super`)

Only the fields `test_super` inspects are carried; `signatureRaw` holds
the 16 raw bytes of the `_signature` field and `fsidFiles` the
`fsid.files` count.  All integer fields come from `c_uint32` parsing and
are below `2^32` in any real image. -/

structure Super where
  magic : Nat
  size : Nat
  flags : Nat
  signatureRaw : List Nat
  fsidFiles : Nat
deriving DecidableEq

/-- Outcome of `test_super` (`pycramfs/util.py`): a raised
`CramfsError`, a raised `UnicodeDecodeError` (from
`Super.signature`'s `.decode()`), or normal return, recording whether
the "old cramfs format" warning was printed. -/
inductive TestResult where
  | cramfsError (msg : String)
  | decodeError
  | ok (warned : Bool)
deriving DecidableEq

/-- `test_super` (`pycramfs/util.py` lines 99-112).  The `signature`
property decodes the NUL-truncated `_signature` bytes before the
comparison.  The flags check computes
`superblock.flags & ~SUPPORTED_FLAGS` where both operands are `IntFlag`
values, so `~` is `flagInvert` (Python 3.11 flag inversion), which
maps `SUPPORTED_FLAGS` to `Flag(0)` — the branch can never fire. -/
def test_super (s : Super) : TestResult :=
  if s.magic ≠ MAGIC then .cramfsError "wrong magic"
  else
    match utf8Decode (cCharValue s.signatureRaw) with
    | none => .decodeError
    | some sig =>
      if sig ≠ SIGNATURE_BYTES then .cramfsError "wrong signature"
      else if s.flags &&& flagInvert SUPPORTED_FLAGS ≠ 0 then
        .cramfsError "unsupported filesystem features"
      else if s.size < PAGE_SIZE then .cramfsError "superblock size too small"
      else if s.flags &&& 1 ≠ 0 then
        if s.fsidFiles = 0 then .cramfsError "zero file count" else .ok false
      else .ok true

end Pycramfs

namespace Pycramfs

/-! ## Claim C1 -/

/-- **C1, the code evaluated at the failing input.**  The claim (and
the spec's §7) make "flags has a bit set outside
`0xFF | 0x100 | 0x200 | 0x400 | 0x800`" a fatal condition, but the
check is dead in the program: `~SUPPORTED_FLAGS` is the Python 3.11
`IntFlag` inversion of the `Flag(0xFFF)` pseudo-member, which is
`Flag(0)`, so `flags & ~SUPPORTED_FLAGS` is never truthy and the
`raise CramfsError("unsupported filesystem features")` line is
unreachable.  At a superblock with correct magic and signature, size
4096 and flags `0x1000` — a bit outside the supported mask, so the
claim demands a `CramfsError` — validation succeeds with only the
"old cramfs format" warning. -/
theorem test_super_flags_check_dead :
    flagInvert SUPPORTED_FLAGS = 0 ∧
    (0x1000 : Nat) &&& SUPPORTED_FLAGS ≠ 0x1000 ∧
    test_super ⟨MAGIC, 4096, 0x1000, SIGNATURE_BYTES, 1⟩ = .ok true := by
  decide

/-! ## Claim C10 -/

/-- **C10, counterexample.**  The claim says any superblock with correct
magic whose *16-byte signature field* is not decodable as text makes
construction fail with a decoding error.  But the ctypes `c_char * 16`
field is truncated at the first NUL before `.decode()`: a signature
field of `00 FF 00 ...` is not decodable as a whole (`0xFF` is never
valid UTF-8), yet the truncated value `b""` decodes fine and the check
fails with the domain `CramfsError` instead. -/
theorem test_super_decode_claim_counterexample :
    let s : Super := ⟨MAGIC, 4096, 1, 0 :: 0xFF :: List.replicate 14 0, 1⟩
    utf8Decode s.signatureRaw = none ∧
      test_super s = .cramfsError "wrong signature" := by decide

/-- **C10, amended.**  For every superblock with the correct magic whose
signature field *truncated at the first NUL* (the value the codec's
`signature` property actually decodes) is not decodable as text, image
construction fails with a text-decoding error rather than the domain
`CramfsError`, because the signature is decoded before being compared. -/
theorem test_super_decode_error (s : Super) (hm : s.magic = MAGIC)
    (hdec : utf8Decode (cCharValue s.signatureRaw) = none) :
    test_super s = .decodeError := by
  unfold test_super
  rw [hdec]
  simp [hm]

/-- Witness for C10's amended theorem: an all-`0xFF` signature field is
undecodable already after NUL truncation. -/
theorem test_super_decode_error_witness :
    test_super ⟨MAGIC, 4096, 1, List.replicate 16 0xFF, 1⟩ = .decodeError :=
  test_super_decode_error ⟨MAGIC, 4096, 1, List.replicate 16 0xFF, 1⟩
    (by decide) (by decide)

/-! ## Bounded sub-stream (`pycramfs/util.py`, class `BoundedSubStream`)

The parent stream is a byte list plus an absolute position (Python
file objects never have a negative position; a `seek` to a negative
absolute position raises, modelled as `none`).  `read` with a negative
size reads to the parent's EOF, exactly like Python. -/

structure BState where
  data : List Nat
  pos : Nat
  start : Nat
  endP : Nat
deriving DecidableEq

/-- Parent-stream read: at most `n` bytes from `pos` (all remaining
bytes when `n < 0`), advancing the position by the number returned. -/
def pRead (st : BState) (n : Int) : List Nat × BState :=
  let avail := st.data.drop st.pos
  let bytes := if n < 0 then avail else avail.take n.toNat
  (bytes, { st with pos := st.pos + bytes.length })

/-- `BoundedSubStream.read`: clamp the requested size to
`end - parent.tell()` (which may be negative) and read from the
parent. -/
def bRead (st : BState) (n : Int) : List Nat × BState :=
  let maxRead : Int := (st.endP : Int) - st.pos
  let size := if n < 0 ∨ n > maxRead then maxRead else n
  pRead st size

/-- `BoundedSubStream.tell`: parent position minus `start`. -/
def bTell (st : BState) : Int := (st.pos : Int) - st.start

inductive Whence where
  | set
  | cur
  | endW
deriving DecidableEq

/-- `BoundedSubStream.seek`.  Returns the reported (local) position and
the new state; `none` when the resulting parent seek target is
negative (Python raises `ValueError` there). -/
def bSeek (st : BState) (offset : Int) (whence : Whence) :
    Option (Int × BState) :=
  match whence with
  | .set =>
    let o := max (st.start : Int) (offset + st.start)
    if o < 0 then none
    else some (o - st.start, { st with pos := o.toNat })
  | .cur =>
    let pos : Int := st.pos
    let o :=
      if pos + offset > (st.endP : Int) then (st.endP : Int) - pos
      else if pos + offset < (st.start : Int) then pos - st.start
      else offset
    if pos + o < 0 then none
    else some (pos + o - st.start, { st with pos := (pos + o).toNat })
  | .endW =>
    let o := min (st.endP : Int) (offset + st.endP)
    if o < 0 then none
    else some (o - st.start, { st with pos := o.toNat })

/-- `seek(n)` for a nonnegative `n` with the default `SEEK_SET` whence:
this always succeeds, used pervasively by the decoders. -/
def bSeekSet (st : BState) (n : Nat) : BState :=
  { st with pos := max st.start (n + st.start) }

/-! ## Claim C4 -/

/-- **C4, code evaluated at the failing input.**  The claim (and the
class's own docstring) promise that positions never escape
`[start, end]`: `seek(o, SET)` should clamp to `[s, e]` and reads
should never return parent bytes outside `[s, e)`.  The code only
clamps `SEEK_SET` from below, so from the in-bounds position 0 of a
`BoundedSubStream` over `[0, 10)` of a 20-byte parent,
`seek(15, SET)` reports 15, `tell()` returns 15 > 10, and a
subsequent `read(4)` returns the parent's 5 bytes at offsets
`[15, 20)` — all outside the window.  The `SEEK_CUR` lower clamp is
also wrong (`offset = pos - start` instead of `start - pos`): from
position 20 of a window `[10, 25)`, `seek(-15, CUR)` lands at parent
offset 30, i.e. `tell() = 20 > 15`. -/
theorem boundedSubStream_escapes_window :
    (∃ st', bSeek ⟨List.replicate 10 1 ++ List.replicate 10 2, 0, 0, 10⟩
        15 .set = some (15, st') ∧
      bTell st' = 15 ∧ ¬ bTell st' ≤ 10 ∧
      (bRead st' 4).1 = List.replicate 5 2) ∧
    (∃ st', bSeek ⟨List.replicate 40 3, 20, 10, 25⟩ (-15) .cur =
        some (20, st') ∧
      bTell st' = 20 ∧ ¬ bTell st' ≤ 15) := by
  refine ⟨⟨⟨List.replicate 10 1 ++ List.replicate 10 2, 15, 0, 10⟩, ?_⟩,
    ⟨⟨List.replicate 40 3, 30, 10, 25⟩, ?_⟩⟩ <;> decide

/-! ## CRC-32 (zlib / ISO HDLC) and `Cramfs.calculate_crc` -/

/-- One bit step of the reflected CRC-32 with polynomial `0xEDB88320`. -/
def crc32Round (c : Nat) : Nat :=
  if c &&& 1 = 1 then (c >>> 1) ^^^ 0xEDB88320 else c >>> 1

/-- One byte step of CRC-32. -/
def crc32Byte (c b : Nat) : Nat :=
  crc32Round (crc32Round (crc32Round (crc32Round
    (crc32Round (crc32Round (crc32Round (crc32Round (c ^^^ b))))))))

/-- `zlib.crc32(data, prev)`: the running CRC-32 used by
`Cramfs.calculate_crc`; `prev` defaults to 0 in Python. -/
def crc32 (data : List Nat) (prev : Nat) : Nat :=
  (data.foldl crc32Byte (prev ^^^ 0xFFFFFFFF)) ^^^ 0xFFFFFFFF

theorem crc32_nil (p : Nat) : crc32 [] p = p := by
  simp [crc32, Nat.xor_assoc]

/-- Streaming property of the CRC, from the pre/post inversion
cancelling out. -/
theorem crc32_append (a b : List Nat) (p : Nat) :
    crc32 (a ++ b) p = crc32 b (crc32 a p) := by
  simp [crc32, List.foldl_append, Nat.xor_assoc]

theorem bRead_snd (st : BState) (n : Int) :
    (bRead st n).2 = { st with pos := st.pos + (bRead st n).1.length } := by
  simp [bRead, pRead]

theorem bRead_fst_length_le (st : BState) (n : Int) :
    (bRead st n).1.length ≤ st.data.length - st.pos := by
  simp only [bRead, pRead]
  split <;> split <;>
    simp [List.length_take, List.length_drop]

/-- Characterisation of a bounded read with a nonnegative request from
a position inside the window. -/
theorem bRead_eq (data : List Nat) (pos s e : Nat) (n : Int)
    (hpe : pos ≤ e) (hn : 0 ≤ n) :
    bRead ⟨data, pos, s, e⟩ n =
      ((data.drop pos).take (min n.toNat (e - pos)),
        ⟨data, pos + min (min n.toNat (e - pos)) (data.length - pos), s, e⟩) := by
  simp only [bRead, pRead]
  have hmr : (0 : Int) ≤ (e : Int) - pos := by omega
  by_cases hgt : n > (e : Int) - pos
  · have : ¬ n < 0 := by omega
    simp only [this, hgt, false_or, if_true, reduceIte]
    have h1 : ((e : Int) - pos).toNat = e - pos := by omega
    have h2 : ¬ ((e : Int) - pos) < 0 := by omega
    have h3 : min n.toNat (e - pos) = e - pos := by omega
    simp [h1, h2, h3, List.length_take]
  · have h0 : ¬ n < 0 := by omega
    simp only [h0, hgt, false_or, if_false, reduceIte]
    have h3 : min n.toNat (e - pos) = n.toNat := by omega
    simp [h0, h3, List.length_take]

/-- The chunked read loop at the end of `Cramfs.calculate_crc`
(`pycramfs/__init__.py` lines 87-88), with explicit fuel: feed blocks
into the running CRC until a read returns nothing. -/
def crcLoopF : Nat → BState → Int → Nat → Nat
  | 0, _, _, crc => crc
  | fuel + 1, st, chunk, crc =>
    if (bRead st chunk).1 = [] then crc
    else crcLoopF fuel (bRead st chunk).2 chunk (crc32 (bRead st chunk).1 crc)

/-- The `while` read loop.  `data.length - pos + 1` iterations always
suffice: each executed iteration strictly advances the parent position,
which never exceeds `data.length` (`crcLoopF_spec` below proves the
value is that of the unbounded loop for *every* sufficient fuel). -/
def crcLoop (st : BState) (chunk : Int) (crc : Nat) : Nat :=
  crcLoopF (st.data.length - st.pos + 1) st chunk crc

/-- `Cramfs.calculate_crc` (`pycramfs/__init__.py` lines 82-89): seek
to local 0, hash the 32 bytes before the CRC field, consume and discard
the 4 CRC bytes, hash 4 NUL bytes in their place, then hash the rest in
chunks. -/
def calculate_crc (st0 : BState) (chunk : Int) : Nat :=
  let st1 := bSeekSet st0 0
  let r1 := bRead st1 32
  let r2 := bRead r1.2 4
  let c1 := crc32 r1.1 0
  let c2 := crc32 (List.replicate 4 0) c1
  crcLoop r2.2 chunk c2

/-- A bounded read with a nonzero request from inside the window
returns a prefix of the remaining window, and an empty result means the
window is exhausted. -/
theorem bRead_window (data : List Nat) (pos s e : Nat) (c : Int)
    (hpe : pos ≤ e) (hc : c ≠ 0) :
    ∃ k, bRead ⟨data, pos, s, e⟩ c =
      ((data.drop pos).take k,
        ⟨data, pos + min k (data.length - pos), s, e⟩) ∧
      k ≤ e - pos ∧ (k = 0 → e - pos = 0) := by
  rcases lt_or_gt_of_ne hc with hneg | hpos
  · refine ⟨e - pos, ?_, le_refl _, fun h => h⟩
    simp only [bRead, pRead]
    rw [if_pos (Or.inl hneg)]
    have h2 : ¬ ((e : Int) - (pos : Nat) < 0) := by omega
    rw [if_neg h2]
    have h3 : ((e : Int) - (pos : Nat)).toNat = e - pos := by omega
    simp [h3, List.length_take]
  · refine ⟨min c.toNat (e - pos),
      bRead_eq data pos s e c hpe (by omega), min_le_right _ _, ?_⟩
    intro h
    have : 1 ≤ c.toNat := by omega
    omega

/-- The read loop accumulates the CRC of exactly the remaining window
bytes, for any nonzero chunk size and any sufficient fuel. -/
theorem crcLoopF_spec (data : List Nat) (s e : Nat) (c : Int)
    (hc : c ≠ 0) :
    ∀ fuel pos crc, data.length - pos ≤ fuel → pos ≤ e →
      crcLoopF (fuel + 1) ⟨data, pos, s, e⟩ c crc =
        crc32 ((data.drop pos).take (e - pos)) crc := by
  intro fuel
  induction fuel with
  | zero =>
    intro pos crc hn hpe
    have hdrop : data.drop pos = [] := List.drop_eq_nil_of_le (by omega)
    have hb : (bRead ⟨data, pos, s, e⟩ c).1 = [] := by
      obtain ⟨k, heq, -, -⟩ := bRead_window data pos s e c hpe hc
      rw [heq]
      simp [hdrop]
    simp [crcLoopF, hb, hdrop, crc32_nil]
  | succ fuel ih =>
    intro pos crc hn hpe
    obtain ⟨k, heq, hk, hk0⟩ := bRead_window data pos s e c hpe hc
    rw [show fuel + 1 + 1 = (fuel + 1) + 1 from rfl]
    rw [crcLoopF, heq]
    by_cases hb : (data.drop pos).take k = []
    · rw [if_pos hb]
      rcases List.take_eq_nil_iff.mp hb with h0 | h0
      · rw [hk0 h0]
        simp [crc32_nil]
      · simp [h0, crc32_nil]
    · rw [if_neg hb]
      have hL1 : 1 ≤ ((data.drop pos).take k).length := List.length_pos.mpr hb
      have hLle : ((data.drop pos).take k).length = min k (data.length - pos) := by
        simp [List.length_take, List.length_drop]
      set L := min k (data.length - pos) with hLdef
      have hpe' : pos + L ≤ e := by omega
      have hn' : data.length - (pos + L) ≤ fuel := by omega
      rw [ih (pos + L) _ hn' hpe', ← crc32_append]
      congr 1
      -- split the remaining window after the bytes just read
      rcases le_or_lt k (data.length - pos) with hcase | hcase
      · -- the read returned all `k` requested bytes
        have hLk : L = k := by omega
        rw [hLk]
        have hsplit : e - pos = k + (e - (pos + k)) := by omega
        rw [hsplit, List.take_add]
        congr 1
        rw [List.drop_drop]
        try congr 2
        try omega
      · -- the read hit the parent's EOF
        have hLA : L = data.length - pos := by omega
        have hlen : (data.drop pos).length = data.length - pos :=
          List.length_drop _ _
        have h1 : (data.drop pos).take k = data.drop pos :=
          List.take_of_length_le (by omega)
        have h2 : (data.drop pos).take (e - pos) = data.drop pos :=
          List.take_of_length_le (by omega)
        have h3 : data.drop (pos + L) = [] :=
          List.drop_eq_nil_of_le (by omega)
        rw [h1, h2, h3]
        simp

/-- Same statement for the fuelled wrapper `crcLoop`. -/
theorem crcLoop_spec (data : List Nat) (pos s e : Nat) (c : Int)
    (crc : Nat) (hc : c ≠ 0) (hpe : pos ≤ e) :
    crcLoop ⟨data, pos, s, e⟩ c crc =
      crc32 ((data.drop pos).take (e - pos)) crc :=
  crcLoopF_spec data s e c hc (data.length - pos) pos crc (le_refl _) hpe

/-- After the two header reads (32 bytes, then 4 discarded bytes) the
remaining window bytes are exactly the window minus its first 36
bytes, whether or not the window or the parent stream is that long. -/
theorem window_rest_eq (data : List Nat) (s e : Nat) (hse : s ≤ e) :
    (data.drop (s + min (min 32 (e - s)) (data.length - s) +
        min (min 4 (e - (s + min (min 32 (e - s)) (data.length - s))))
          (data.length - (s + min (min 32 (e - s)) (data.length - s))))).take
      (e - (s + min (min 32 (e - s)) (data.length - s) +
        min (min 4 (e - (s + min (min 32 (e - s)) (data.length - s))))
          (data.length - (s + min (min 32 (e - s)) (data.length - s))))) =
      ((data.drop s).take (e - s)).drop 36 := by
  set L1 := min (min 32 (e - s)) (data.length - s) with hL1
  set L2 := min (min 4 (e - (s + L1))) (data.length - (s + L1)) with hL2
  set M := min (e - s) (data.length - s) with hM
  have hsum : L1 + L2 = min 36 M := by omega
  rcases le_or_lt 36 M with h36 | h36
  · have h1 : s + L1 + L2 = s + 36 := by omega
    rw [h1, List.drop_take, List.drop_drop]
    congr 1
  · have hrhs : ((data.drop s).take (e - s)).drop 36 = [] :=
      List.drop_eq_nil_of_le (by simp [List.length_take, List.length_drop]; omega)
    rw [hrhs]
    have h1 : s + L1 + L2 = s + M := by omega
    rw [h1]
    rcases le_or_lt (e - s) (data.length - s) with hWA | hWA
    · have h2 : e - (s + M) = 0 := by omega
      simp [h2]
    · have h2 : data.drop (s + M) = [] := List.drop_eq_nil_of_le (by omega)
      simp [h2]

/-- **C3, amended.**  `calculate_crc` returns the CRC-32
(zlib / ISO HDLC) of the bounded image window in which the 4 bytes at
offset 32 from the superblock start are replaced by 4 NUL bytes (not
skipped): it hashes the first 32 window bytes, then four zero bytes in
place of the stored CRC field, then all remaining window bytes — for
every *nonzero* chunk size argument (with chunk size 0 the read loop
stops immediately and the remainder is never hashed; see the
counterexample). -/
theorem calculate_crc_spec (data : List Nat) (p0 s e : Nat) (c : Int)
    (hse : s ≤ e) (hc : c ≠ 0) :
    calculate_crc ⟨data, p0, s, e⟩ c =
      crc32 (((data.drop s).take (e - s)).take 32 ++ List.replicate 4 0 ++
        ((data.drop s).take (e - s)).drop 36) 0 := by
  have hseek : bSeekSet ⟨data, p0, s, e⟩ 0 = ⟨data, s, s, e⟩ := by
    simp [bSeekSet]
  have h1 := bRead_eq data s s e 32 hse (by norm_num)
  rw [show ((32 : Int)).toNat = 32 from rfl] at h1
  have hL1le : min (min 32 (e - s)) (data.length - s) ≤ e - s := by omega
  set L1 := min (min 32 (e - s)) (data.length - s) with hL1
  have hpos2 : s + L1 ≤ e := by omega
  have h2 := bRead_eq data (s + L1) s e 4 hpos2 (by norm_num)
  rw [show ((4 : Int)).toNat = 4 from rfl] at h2
  set L2 := min (min 4 (e - (s + L1))) (data.length - (s + L1)) with hL2
  have hL2le : L2 ≤ e - (s + L1) := by omega
  simp only [calculate_crc]
  rw [hseek, h1]
  dsimp only
  rw [h2]
  dsimp only
  rw [crcLoop_spec data (s + L1 + L2) s e c _ hc (by omega)]
  rw [crc32_append, crc32_append]
  congr 1
  · exact window_rest_eq data s e hse
  · congr 2
    rw [List.take_take]

set_option maxRecDepth 8192 in
/-- **C3, counterexample to "regardless of the chunk size argument".**
With chunk size 0 the read loop's first `read(0)` returns no bytes and
the loop exits at once, so the window bytes after the CRC field are
never hashed: on a 37-byte window whose last byte is 1 the result
differs from the claimed checksum. -/
theorem calculate_crc_chunk0_counterexample :
    calculate_crc ⟨List.replicate 36 0 ++ [1], 0, 0, 37⟩ 0 ≠
      crc32 ((List.replicate 36 0 ++ [1]).take 32 ++ List.replicate 4 0 ++
        (List.replicate 36 0 ++ [1]).drop 36) 0 := by decide

/-- Witness for C3's amended theorem at a concrete window and the
default-sign chunk size 1. -/
theorem calculate_crc_spec_witness :
    calculate_crc ⟨List.replicate 36 0 ++ [1], 5, 0, 37⟩ 1 =
      crc32 (((((List.replicate 36 0 ++ [1]) : List Nat).drop 0).take (37 - 0)).take 32
        ++ List.replicate 4 0 ++
        ((((List.replicate 36 0 ++ [1]) : List Nat).drop 0).take (37 - 0)).drop 36) 0 :=
  calculate_crc_spec (List.replicate 36 0 ++ [1]) 5 0 37 1 (by omega) (by omega)

/-! ## Block pointers and `DataFile.iter_bytes` (`pycramfs/file.py`) -/

/-- `BlockFlag.UNCOMPRESSED | BlockFlag.DIRECT_PTR` = bits 31 and 30. -/
def BLK_FLAGS : Nat := 0xC0000000

inductive BlockErr where
  | unsupportedLayout
  | structError
deriving DecidableEq

/-- Little-endian 32-bit word from four bytes. -/
def le32 (a b c d : Nat) : Nat :=
  a + 0x100 * b + 0x10000 * c + 0x1000000 * d

def chunk4 : List Nat → List Nat
  | a :: b :: c :: d :: rest => le32 a b c d :: chunk4 rest
  | _ => []

/-- `struct.iter_unpack("<I", buf)`: fails unless the buffer length is
a multiple of 4. -/
def unpack32s (l : List Nat) : Option (List Nat) :=
  if l.length % 4 = 0 then some (chunk4 l) else none

/-- `maxblock = (inode.size + PAGE_SIZE - 1) // PAGE_SIZE`. -/
def maxblockOf (S : Nat) : Nat := (S + PAGE_SIZE - 1) / PAGE_SIZE

/-- The per-pointer loop of `DataFile.iter_bytes` (lines 265-275):
check the flag bits, strip them (`block_ptr &= ~BLK_FLAGS`, which on
Python ints is `Nat.ldiff`), read `block_ptr - fd.tell()` bytes, and
decompress unless the block is marked uncompressed.  `dec` stands for
`zlib.decompress`. -/
def iterBlocks (dec : List Nat → List Nat) :
    BState → List Nat → Except BlockErr (List (List Nat))
  | _, [] => .ok []
  | st, p :: ps =>
    if p &&& (1 <<< 30) ≠ 0 then .error .unsupportedLayout
    else
      let q := Nat.ldiff p BLK_FLAGS
      let r := bRead st ((q : Int) - bTell st)
      let payload := if p &&& (1 <<< 31) ≠ 0 then r.1 else dec r.1
      match iterBlocks dec r.2 ps with
      | .ok l => .ok (payload :: l)
      | .error e => .error e

/-- `DataFile.iter_bytes` (lines 260-275), fully consumed: seek to the
inode's data offset, read the block-pointer array, then decode every
block.  `S` and `off` are the inode's `size` and (byte) `offset`. -/
def iter_bytes (dec : List Nat → List Nat) (st0 : BState) (S off : Nat) :
    Except BlockErr (List (List Nat)) :=
  let st1 := bSeekSet st0 off
  let r := bRead st1 ((4 * maxblockOf S : Nat) : Int)
  match unpack32s r.1 with
  | none => .error .structError
  | some ptrs => iterBlocks dec r.2 ptrs

/-! ## Claim C2 -/

/-- Spec side of C2: the block pointers are `ceil(S/4096)` little-endian
u32 words read at byte offset `off` of the window. -/
def blockPtrs (w : List Nat) (S off : Nat) : List Nat :=
  chunk4 ((w.drop off).take (4 * maxblockOf S))

/-- Spec side of C2: block `i`'s payload spans the window bytes from the
previous cursor up to `p &&& 0x3FFFFFFF`, is yielded as-is when bit 31
is set and decompressed otherwise, and the cursor advances to that end
offset. -/
def claimBlocks (dec : List Nat → List Nat) (w : List Nat) :
    Nat → List Nat → List (List Nat)
  | _, [] => []
  | cursor, p :: ps =>
    let e := p &&& 0x3FFFFFFF
    let raw := (w.drop cursor).take (e - cursor)
    (if p &&& (1 <<< 31) ≠ 0 then raw else dec raw) ::
      claimBlocks dec w e ps

/-- Well-formed pointer chain: no DIRECT_PTR bit, and the 30-bit end
offsets are monotone and stay inside the window. -/
def chainOK (wlen : Nat) : Nat → List Nat → Bool
  | _, [] => true
  | cursor, p :: ps =>
    decide (p &&& (1 <<< 30) = 0) && decide (cursor ≤ p &&& 0x3FFFFFFF) &&
      decide (p &&& 0x3FFFFFFF ≤ wlen) && chainOK wlen (p &&& 0x3FFFFFFF) ps

/-- For a parsed u32 (`p < 2^32`), clearing the two flag bits with
Python's `p & ~0xC0000000` equals masking with `0x3FFFFFFF`. -/
theorem ldiff_blkflags (p : Nat) (hp : p < 2 ^ 32) :
    Nat.ldiff p BLK_FLAGS = p &&& 0x3FFFFFFF := by
  apply Nat.eq_of_testBit_eq
  intro i
  rcases lt_or_ge i 32 with hi | hi
  · have hc : ∀ j, j < 32 →
        ((!(Nat.testBit BLK_FLAGS j)) = Nat.testBit 0x3FFFFFFF j) := by decide
    rw [Nat.testBit_ldiff, Nat.testBit_and, hc i hi]
  · have hpi : p.testBit i = false :=
      Nat.testBit_lt_two_pow (lt_of_lt_of_le hp (Nat.pow_le_pow_right (by omega) hi))
    rw [Nat.testBit_ldiff, Nat.testBit_and, hpi]
    simp

/-- Words assembled from bytes are below `2^32`. -/
theorem chunk4_lt : ∀ (l : List Nat), (∀ b ∈ l, b < 256) →
    ∀ p ∈ chunk4 l, p < 2 ^ 32
  | a :: b :: c :: d :: rest, hl => by
    intro p hp
    simp only [chunk4, List.mem_cons] at hp
    rcases hp with h | h
    · have ha := hl a (by simp)
      have hb := hl b (by simp)
      have hc := hl c (by simp)
      have hd := hl d (by simp)
      subst h
      simp only [le32]
      omega
    · exact chunk4_lt rest (fun x hx => hl x (by simp [hx])) p h
  | [], _ => by simp [chunk4]
  | [a], _ => by intro p hp; simp [chunk4] at hp
  | [a, b], _ => by intro p hp; simp [chunk4] at hp
  | [a, b, c], _ => by intro p hp; simp [chunk4] at hp

/-- The block loop follows the claimed cursor recurrence. -/
theorem iterBlocks_spec (dec : List Nat → List Nat) (data : List Nat) :
    ∀ (ptrs : List Nat) (cursor : Nat),
      (∀ p ∈ ptrs, p < 2 ^ 32) →
      chainOK data.length cursor ptrs = true →
      cursor ≤ data.length →
      iterBlocks dec ⟨data, cursor, 0, data.length⟩ ptrs =
        .ok (claimBlocks dec data cursor ptrs) := by
  intro ptrs
  induction ptrs with
  | nil => intro cursor _ _ _; rfl
  | cons p ps ih =>
    intro cursor hlt hch hcur
    simp only [chainOK, Bool.and_eq_true, decide_eq_true_eq] at hch
    obtain ⟨⟨⟨h30, hcle⟩, hle⟩, hch'⟩ := hch
    have hp32 : p < 2 ^ 32 := hlt p (by simp)
    have hcond : ¬ (p &&& 1 <<< 30 ≠ 0) := fun hne => hne h30
    simp only [iterBlocks]
    rw [if_neg hcond, ldiff_blkflags p hp32]
    have htell : bTell ⟨data, cursor, 0, data.length⟩ = (cursor : Int) := by
      simp [bTell]
    rw [htell]
    have hn : ((p &&& 0x3FFFFFFF : Nat) : Int) - (cursor : Int) =
        (((p &&& 0x3FFFFFFF) - cursor : Nat) : Int) := by omega
    rw [hn, bRead_eq data cursor 0 data.length _ hcur (by omega)]
    rw [Int.toNat_natCast]
    dsimp only
    have hmin1 : ((p &&& 0x3FFFFFFF) - cursor) ⊓ (data.length - cursor) =
        (p &&& 0x3FFFFFFF) - cursor := by omega
    simp only [hmin1]
    have hpos : cursor + ((p &&& 0x3FFFFFFF) - cursor) = p &&& 0x3FFFFFFF := by
      omega
    rw [hpos, ih (p &&& 0x3FFFFFFF) (fun x hx => hlt x (by simp [hx])) hch' hle]
    rfl

set_option maxHeartbeats 1000000 in
/-- **C2 (confirmed).**  For a data-bearing node with inode size `S`
and data offset `off` over a fully backed image window, `iter_bytes`
reads `ceil(S/4096)` block pointers at `off`; for each pointer `p` in
order it reads exactly `(p &&& 0x3FFFFFFF) - cursor` payload bytes,
where the cursor starts at `off + 4*ceil(S/4096)` and becomes
`p &&& 0x3FFFFFFF` after each block; bit 31 yields the payload as-is,
otherwise it is zlib-decompressed (`dec`).  Hypotheses: the bytes are
bytes, the pointer array lies inside the window, and the pointer chain
is well formed (no DIRECT_PTR, monotone in-window end offsets — on
other inputs the code raises or reads garbage, which the claim does not
describe). -/
theorem iter_bytes_spec (dec : List Nat → List Nat) (data : List Nat)
    (p0 S off : Nat)
    (hb : ∀ x ∈ data, x < 256)
    (harr : off + 4 * maxblockOf S ≤ data.length)
    (hch : chainOK data.length (off + 4 * maxblockOf S)
      (blockPtrs data S off) = true) :
    iter_bytes dec ⟨data, p0, 0, data.length⟩ S off =
      .ok (claimBlocks dec data (off + 4 * maxblockOf S)
        (blockPtrs data S off)) := by
  have hoff : off ≤ data.length := by omega
  have hseek : bSeekSet ⟨data, p0, 0, data.length⟩ off =
      ⟨data, off, 0, data.length⟩ := by
    simp [bSeekSet]
  simp only [iter_bytes]
  rw [hseek, bRead_eq data off 0 data.length _ hoff (by omega),
    Int.toNat_natCast]
  have hmin : min (4 * maxblockOf S) (data.length - off) =
      4 * maxblockOf S := by omega
  rw [hmin]
  dsimp only
  have hlen : ((data.drop off).take (4 * maxblockOf S)).length =
      4 * maxblockOf S := by
    simp [List.length_take, List.length_drop]
    omega
  have hunpack : unpack32s ((data.drop off).take (4 * maxblockOf S)) =
      some (blockPtrs data S off) := by
    simp [unpack32s, hlen, Nat.mul_mod_right, blockPtrs]
  rw [hunpack]
  have hposeq : off + min (4 * maxblockOf S) (data.length - off) =
      off + 4 * maxblockOf S := by omega
  rw [hmin]
  exact iterBlocks_spec dec data (blockPtrs data S off)
    (off + 4 * maxblockOf S)
    (chunk4_lt _ (fun x hx => hb x
      (List.mem_of_mem_drop (List.mem_of_mem_take hx))))
    hch (by omega)

/-- Witness for C2: a one-block uncompressed file of 5 bytes whose
single pointer `0x80000009` ends the payload at window offset 9. -/
theorem iter_bytes_spec_witness :
    iter_bytes (fun l => l) ⟨[9, 0, 0, 0x80, 1, 2, 3, 4, 5], 0, 0, 9⟩ 5 0 =
      .ok [[1, 2, 3, 4, 5]] := by
  have h := iter_bytes_spec (fun l => l) [9, 0, 0, 0x80, 1, 2, 3, 4, 5] 0 5 0
    (by decide) (by decide) (by decide)
  exact h

/-! ## Inodes and `Directory.from_fd` (`pycramfs/structure.py`,
`pycramfs/file.py`) -/

/-- The six bit fields of the 12-byte packed inode
(`Inode._fields_`): three little-endian u32 words holding
`mode`:16/`uid`:16, `size`:24/`gid`:8 and `namelen`:6/`offset`:26.
`namelen` and `offset` are stored in 4-byte units. -/
structure Inode where
  mode : Nat
  uid : Nat
  size : Nat
  gid : Nat
  namelen : Nat
  offset : Nat
deriving DecidableEq

/-- `Inode.from_bytes`: decode the packed bit fields (`ctypes`
little-endian layout, LSB-first within each u32). -/
def inodeFromBytes (bs : List Nat) : Inode :=
  let w1 := le32 (bs.getD 0 0) (bs.getD 1 0) (bs.getD 2 0) (bs.getD 3 0)
  let w2 := le32 (bs.getD 4 0) (bs.getD 5 0) (bs.getD 6 0) (bs.getD 7 0)
  let w3 := le32 (bs.getD 8 0) (bs.getD 9 0) (bs.getD 10 0) (bs.getD 11 0)
  ⟨w1 &&& 0xFFFF, (w1 >>> 16) &&& 0xFFFF, w2 &&& 0xFFFFFF,
   (w2 >>> 24) &&& 0xFF, w3 &&& 0x3F, (w3 >>> 6) &&& 0x3FFFFFF⟩

/-- `bytes.rstrip(b"\x00")`. -/
def rstripNul (l : List Nat) : List Nat :=
  (l.reverse.dropWhile (· == 0)).reverse

/-- One iteration body of the `Directory.from_fd` scanning loop
(`pycramfs/file.py` lines 244-246): read a 12-byte inode
(`ctypes` raises on a short buffer, modelled as `none`), then read its
`namelen` bytes of name and strip trailing NULs. -/
def dirStep (st : BState) : Option (Inode × List Nat × BState) :=
  let r1 := bRead st 12
  if r1.1.length = 12 then
    let ino := inodeFromBytes r1.1
    let r2 := bRead r1.2 ((ino.namelen * 4 : Nat) : Int)
    some (ino, rstripNul r2.1, r2.2)
  else none

/-- The `while fd.tell() != end` loop of `Directory.from_fd` (lines
243-246) with explicit fuel, collecting `(inode, name)` child records. -/
def dirLoopF : Nat → BState → Nat → Option (List (Inode × List Nat) × BState)
  | 0, _, _ => none
  | fuel + 1, st, endL =>
    if bTell st = (endL : Int) then some ([], st)
    else
      match dirStep st with
      | none => none
      | some (ino, name, st') =>
        (dirLoopF fuel st' endL).map (fun x => ((ino, name) :: x.1, x.2))

/-! ## Claim C8 -/

/-- The child records of a directory inode exactly tile the local
region `[p, endL)`: each record is a 12-byte inode followed by its
`namelen * 4` name bytes, all inside the window and the parent stream,
and the records end exactly at `endL`. -/
inductive Tiles (data : List Nat) (s e : Nat) : Nat → Nat → Prop where
  | refl (p : Nat) : Tiles data s e p p
  | step (p endL : Nat)
      (hlen : s + p + 12 +
        (inodeFromBytes ((data.drop (s + p)).take 12)).namelen * 4 ≤
          data.length)
      (hwin : s + p + 12 +
        (inodeFromBytes ((data.drop (s + p)).take 12)).namelen * 4 ≤ e)
      (hend : p + 12 +
        (inodeFromBytes ((data.drop (s + p)).take 12)).namelen * 4 ≤ endL)
      (hnext : Tiles data s e
        (p + 12 + (inodeFromBytes ((data.drop (s + p)).take 12)).namelen * 4)
        endL) :
      Tiles data s e p endL

/-- On a tiled region one loop iteration reads the full inode and name
and lands exactly after the record. -/
theorem dirStep_tiled (data : List Nat) (s e p : Nat)
    (hlen : s + p + 12 +
      (inodeFromBytes ((data.drop (s + p)).take 12)).namelen * 4 ≤
        data.length)
    (hwin : s + p + 12 +
      (inodeFromBytes ((data.drop (s + p)).take 12)).namelen * 4 ≤ e) :
    dirStep ⟨data, s + p, s, e⟩ =
      some (inodeFromBytes ((data.drop (s + p)).take 12),
        rstripNul ((data.drop (s + p + 12)).take
          ((inodeFromBytes ((data.drop (s + p)).take 12)).namelen * 4)),
        ⟨data, s + p + 12 +
          (inodeFromBytes ((data.drop (s + p)).take 12)).namelen * 4,
          s, e⟩) := by
  set n := (inodeFromBytes ((data.drop (s + p)).take 12)).namelen * 4 with hn
  unfold dirStep
  rw [bRead_eq data (s + p) s e 12 (by omega) (by omega)]
  rw [show ((12 : Int)).toNat = 12 from rfl]
  have hm12 : min 12 (e - (s + p)) = 12 := by omega
  rw [hm12]
  dsimp only
  have hm12' : min 12 (data.length - (s + p)) = 12 := by omega
  rw [hm12']
  have hlen12 : ((data.drop (s + p)).take 12).length = 12 := by
    simp [List.length_take, List.length_drop]
    omega
  rw [if_pos hlen12]
  rw [bRead_eq data (s + p + 12) s e _ (by omega) (Int.natCast_nonneg _)]
  rw [Int.toNat_natCast]
  have hmn : min n (e - (s + p + 12)) = n := by omega
  rw [← hn, hmn]
  dsimp only
  have hmn' : min n (data.length - (s + p + 12)) = n := by omega
  rw [hmn']

/-- With enough fuel the loop consumes a tiled region completely and
stops with the position exactly at `endL`. -/
theorem dirLoopF_tiles (data : List Nat) (s e : Nat) :
    ∀ (p endL : Nat), Tiles data s e p endL →
      ∀ fuel, endL - p < fuel →
        ∃ res, dirLoopF fuel ⟨data, s + p, s, e⟩ endL =
          some (res, ⟨data, s + endL, s, e⟩) := by
  intro p endL ht
  induction ht with
  | refl q =>
    intro fuel hf
    match fuel, hf with
    | fuel + 1, _ =>
      refine ⟨[], ?_⟩
      simp [dirLoopF, bTell]
  | step p endL hlen hwin hend hnext ih =>
    intro fuel hf
    match fuel, hf with
    | fuel + 1, hf =>
      have hguard : ¬ (bTell ⟨data, s + p, s, e⟩ = ((endL : Nat) : Int)) := by
        simp only [bTell]
        omega
      have hstep := dirStep_tiled data s e p hlen hwin
      obtain ⟨res, hres⟩ := ih fuel (by omega)
      refine ⟨(inodeFromBytes ((data.drop (s + p)).take 12),
        rstripNul ((data.drop (s + p + 12)).take
          ((inodeFromBytes ((data.drop (s + p)).take 12)).namelen * 4))) ::
          res, ?_⟩
      have hpos : s + p + 12 +
          (inodeFromBytes ((data.drop (s + p)).take 12)).namelen * 4 =
            s + (p + 12 +
              (inodeFromBytes ((data.drop (s + p)).take 12)).namelen * 4) := by
        omega
      simp only [dirLoopF, if_neg hguard, hstep, hpos, hres]
      rfl

/-- Inverting a non-trivial tiling yields the first record's bounds. -/
theorem tiles_step_of_ne (data : List Nat) (s e p endL : Nat)
    (ht : Tiles data s e p endL) (hne : p ≠ endL) :
    s + p + 12 + (inodeFromBytes ((data.drop (s + p)).take 12)).namelen * 4 ≤
        data.length ∧
      s + p + 12 +
        (inodeFromBytes ((data.drop (s + p)).take 12)).namelen * 4 ≤ e ∧
      p + 12 +
        (inodeFromBytes ((data.drop (s + p)).take 12)).namelen * 4 ≤ endL := by
  cases ht with
  | refl => exact absurd rfl hne
  | step _ _ hlen hwin hend hnext => exact ⟨hlen, hwin, hend⟩

/-- **C8 (confirmed).**  `Directory.from_fd` terminates for every
directory inode whose child records exactly tile the local region
`[off, off + size)`: after the seek to `off`, the scanning loop (guard
`tell() != end`) needs at most `size + 1` iterations, exits with the
position exactly at `off + size`, and every non-final iteration
strictly advances the stream position. -/
theorem directory_from_fd_terminates (data : List Nat) (p0 s e off size : Nat)
    (ht : Tiles data s e off (off + size)) :
    (∃ res, dirLoopF (size + 1) (bSeekSet ⟨data, p0, s, e⟩ off) (off + size) =
        some (res, ⟨data, s + (off + size), s, e⟩) ∧
      bTell (⟨data, s + (off + size), s, e⟩ : BState) =
        ((off + size : Nat) : Int)) ∧
    (size ≠ 0 →
      ∃ ino name st', dirStep (bSeekSet ⟨data, p0, s, e⟩ off) =
        some (ino, name, st') ∧
        bTell (bSeekSet ⟨data, p0, s, e⟩ off) < bTell st') := by
  have hseek : bSeekSet ⟨data, p0, s, e⟩ off = ⟨data, s + off, s, e⟩ := by
    simp only [bSeekSet]
    congr 1
    omega
  rw [hseek]
  constructor
  · obtain ⟨res, hres⟩ := dirLoopF_tiles data s e off (off + size) ht
      (size + 1) (by omega)
    refine ⟨res, hres, ?_⟩
    simp only [bTell]
    omega
  · intro hsz
    obtain ⟨hlen, hwin, hend⟩ := tiles_step_of_ne data s e off (off + size) ht
      (by omega)
    refine ⟨_, _, _, dirStep_tiled data s e off hlen hwin, ?_⟩
    simp only [bTell]
    omega

/-- Witness for C8: a 16-byte directory region holding one child
record — a 12-byte inode with raw `namelen` 1 (4 name bytes `"A\0\0\0"`). -/
theorem directory_from_fd_terminates_witness :
    ∃ res, dirLoopF 17
        (bSeekSet ⟨[0, 0, 0, 0, 0, 0, 0, 0, 1, 0, 0, 0, 65, 0, 0, 0],
          0, 0, 16⟩ 0) 16 =
      some (res, ⟨[0, 0, 0, 0, 0, 0, 0, 0, 1, 0, 0, 0, 65, 0, 0, 0],
        16, 0, 16⟩) := by
  obtain ⟨res, h1, h2⟩ := (directory_from_fd_terminates
    [0, 0, 0, 0, 0, 0, 0, 0, 1, 0, 0, 0, 65, 0, 0, 0] 0 0 16 0 16
    (Tiles.step 0 16 (by decide) (by decide) (by decide)
      (Tiles.refl 16))).1
  exact ⟨res, h1⟩

/-! ## The in-memory file tree (`pycramfs/file.py`)

A constructed image's tree: directories own an insertion-ordered list
of children (the dict of `Directory._files`; after construction the
names of siblings are distinct since the dict is keyed by name), every
other file kind is a leaf for the purposes of traversal. -/

inductive FNode where
  | leaf (name : String)
  | dir (name : String) (children : List FNode)

def FNode.name : FNode → String
  | .leaf n => n
  | .dir n _ => n

def childrenOf : FNode → List FNode
  | .leaf _ => []
  | .dir _ cs => cs

/-! `Directory.riter` (lines 184-191): yield self, then every child,
recursing into directories. -/
mutual
def riter : FNode → List FNode
  | .leaf n => [.leaf n]
  | .dir n cs => .dir n cs :: riterList cs
def riterList : List FNode → List FNode
  | [] => []
  | c :: cs => riter c ++ riterList cs
end

/-! `Directory.total` (lines 174-179): number of children plus the
totals of the directory children. -/
mutual
def totalF : FNode → Nat
  | .leaf _ => 0
  | .dir _ cs => cs.length + sumTotals cs
def sumTotals : List FNode → Nat
  | [] => 0
  | c :: cs =>
    (match c with
      | .dir m ds => totalF (.dir m ds)
      | .leaf _ => 0) + sumTotals cs
end

/-- The memoisation of `Directory.total`: `_total` starts as `None`
and is filled on first access; later accesses return the cached value. -/
def totalAccess : Option Nat → FNode → Nat × Option Nat
  | some v, _ => (v, some v)
  | none, d => (totalF d, some (totalF d))

/-! ## Claim C9 -/

mutual
theorem riter_length_eq : ∀ (t : FNode), (riter t).length =
    (match t with
      | .leaf _ => 1
      | .dir nm cs => totalF (.dir nm cs) + 1)
  | .leaf nm => by simp [riter]
  | .dir nm cs => by
    simp only [riter, totalF, List.length_cons, riterList_length_eq cs]
    omega
theorem riterList_length_eq : ∀ (cs : List FNode),
    (riterList cs).length = sumTotals cs + cs.length
  | [] => by simp [riterList, sumTotals]
  | c :: cs => by
    cases c with
    | leaf nm =>
      simp only [riterList, List.length_append, List.length_cons,
        riter_length_eq (.leaf nm), sumTotals, riterList_length_eq cs]
      omega
    | dir nm ds =>
      simp only [riterList, List.length_append, List.length_cons,
        riter_length_eq (.dir nm ds), sumTotals, riterList_length_eq cs]
      omega
end

/-- **C9 (confirmed).**  For every directory, `total` equals the number
of nodes of `riter()` minus one (every descendant of every kind,
excluding the directory itself), and repeated (memoised) access
returns the same value. -/
theorem directory_total_spec (nm : String) (cs : List FNode) :
    totalF (.dir nm cs) = (riter (.dir nm cs)).length - 1 ∧
    (totalAccess none (.dir nm cs)).1 = totalF (.dir nm cs) ∧
    (totalAccess (totalAccess none (.dir nm cs)).2 (.dir nm cs)).1 =
      (totalAccess none (.dir nm cs)).1 := by
  refine ⟨?_, rfl, rfl⟩
  have h : (riter (FNode.dir nm cs)).length = totalF (.dir nm cs) + 1 :=
    riter_length_eq (.dir nm cs)
  omega

/-! ## `Directory.itermatch` and `Directory.select` (`pycramfs/file.py`) -/

/-- `self._files.get(child)`: the dict is keyed by name; on the
post-construction tree it is a name-keyed lookup among the children. -/
def childLookup (cs : List FNode) (nm : String) : Option FNode :=
  cs.find? (fun x => x.name == nm)

/-- `Directory.select` (lines 201-223) restricted to the relative,
already-split paths that `itermatch` feeds back to it: `[]` stands for
`"."` (return self); otherwise look the first component up among the
children, return it when it is the last component, recurse when it is
a directory, else fail. -/
def selectRel : FNode → List String → Option FNode
  | d, [] => some d
  | .leaf _, _ :: _ => none
  | .dir _ cs, c :: rest =>
    match childLookup cs c with
    | none => none
    | some f =>
      match f, rest with
      | g, [] => some g
      | .dir m ds, r :: rs => selectRel (.dir m ds) (r :: rs)
      | .leaf _, _ :: _ => none

/-! The relative path (as components) of every `riter` node with
respect to the directory itself, in `riter` order: `[]` renders as
`"."`, others join with `"/"` (`file.path.relative_to(self.path)`). -/
mutual
def riterPaths : FNode → List (List String)
  | .leaf _ => [[]]
  | .dir _ cs => [] :: riterPathsList cs
def riterPathsList : List FNode → List (List String)
  | [] => []
  | c :: cs => (riterPaths c).map (fun p => c.name :: p) ++ riterPathsList cs
end

/-- `str()` of a relative `PurePosixPath` given by its components. -/
def pathStr : List String → String
  | [] => "."
  | c :: rest => rest.foldl (fun acc x => acc ++ "/" ++ x) c

/-- Modelled from the spec: the shell-style matcher `fnmatch` that
`itermatch` delegates to (an external collaborator), for patterns made
of literal characters and `*`; per the spec "`*` ... matches across
separators", i.e. `*` matches any character sequence.  Fuelled for
computability; `pat.length + s.length + 1` steps always suffice. -/
def globMatchF : Nat → List Char → List Char → Bool
  | 0, _, _ => false
  | fuel + 1, pat, s =>
    match pat with
    | [] => s.isEmpty
    | p :: ps =>
      if p = '*' then
        globMatchF fuel ps s ||
          (match s with
           | [] => false
           | _ :: s1 => globMatchF fuel (p :: ps) s1)
      else
        match s with
        | [] => false
        | c :: cs => p == c && globMatchF fuel ps cs

def globMatch (pat s : List Char) : Bool :=
  globMatchF (pat.length + s.length + 1) pat s

/-- `Directory.itermatch` (lines 225-233), non-root branch, with the
fixed pattern `"*"`: render every `riter` node's relative path, filter
with the matcher, and feed each surviving path back to `select`. -/
def itermatchStar (d : FNode) : List (Option FNode) :=
  ((riterPaths d).filter (fun p => globMatch ['*'] (pathStr p).toList)).map
    (selectRel d)

/-! Well-formedness of the post-construction tree: sibling names are
distinct (the children dict is keyed by name). -/
mutual
def wfNode : FNode → Bool
  | .leaf _ => true
  | .dir _ cs => decide ((cs.map FNode.name).Nodup) && wfList cs
def wfList : List FNode → Bool
  | [] => true
  | c :: cs => wfNode c && wfList cs
end

/-! ## Claim C6 -/

theorem globMatchF_star (fuel : Nat) : ∀ (s : List Char), s.length < fuel →
    globMatchF (fuel + 1) ['*'] s = true := by
  induction fuel with
  | zero => intro s h; omega
  | succ fuel ih =>
    intro s h
    cases s with
    | nil =>
      simp [globMatchF]
    | cons c s1 =>
      have h1 : s1.length < fuel := by
        simp only [List.length_cons] at h
        omega
      have hunf : globMatchF (fuel + 1 + 1) ['*'] (c :: s1) =
          (globMatchF (fuel + 1) [] (c :: s1) ||
            globMatchF (fuel + 1) ['*'] s1) := rfl
      rw [hunf, show globMatchF (fuel + 1) [] (c :: s1) = false from rfl,
        ih s1 h1]
      rfl

/-- `fnmatch('*')` matches every string. -/
theorem globMatch_star (s : List Char) : globMatch ['*'] s = true := by
  unfold globMatch
  rw [show (['*'] : List Char).length + s.length + 1 = (s.length + 1) + 1
    from by simp only [List.length_singleton]; omega]
  exact globMatchF_star (s.length + 1) s (by omega)

/-- Name-keyed lookup finds each child when sibling names are
distinct. -/
theorem childLookup_of_mem (cs : List FNode) (c : FNode)
    (hnd : (cs.map FNode.name).Nodup) (hmem : c ∈ cs) :
    childLookup cs c.name = some c := by
  induction cs with
  | nil => cases hmem
  | cons h t ih =>
    simp only [List.map_cons, List.nodup_cons] at hnd
    rcases List.mem_cons.mp hmem with rfl | hmemt
    · rw [childLookup, List.find?_cons_of_pos _ (by simp)]
    · have hcn : c.name ∈ t.map FNode.name := List.mem_map_of_mem _ hmemt
      have hne : (h.name == c.name) = false := by
        simp only [beq_eq_false_iff_ne, ne_eq]
        intro he
        exact hnd.1 (he ▸ hcn)
      rw [childLookup, List.find?_cons_of_neg _ (by simp [hne])]
      exact ih hnd.2 hmemt

theorem riterPathsList_ne_nil : ∀ (ds : List FNode) (p : List String),
    p ∈ riterPathsList ds → p ≠ []
  | [], p => by
    intro hp
    simp [riterPathsList] at hp
  | c :: cs, p => by
    intro hp
    simp only [riterPathsList, List.mem_append, List.mem_map] at hp
    rcases hp with ⟨q, -, hq⟩ | hp
    · exact hq ▸ (by simp)
    · exact riterPathsList_ne_nil cs p hp

theorem wfList_mem : ∀ (cs : List FNode), wfList cs = true →
    ∀ c ∈ cs, wfNode c = true
  | [] => by
    intro _ c hc
    exact absurd hc (by simp)
  | c :: cs => by
    intro hwf d hd
    simp only [wfList, Bool.and_eq_true] at hwf
    rcases List.mem_cons.mp hd with rfl | hmem
    · exact hwf.1
    · exact wfList_mem cs hwf.2 d hmem

mutual
theorem selectPaths_node : ∀ (c : FNode), wfNode c = true →
    ∀ (dn : String) (cs : List FNode), childLookup cs c.name = some c →
      (riterPaths c).map (fun p => selectRel (.dir dn cs) (c.name :: p)) =
        (riter c).map some
  | .leaf nm => by
    intro hwf dn cs hlook
    simp only [FNode.name] at hlook
    have hsel : selectRel (.dir dn cs) [nm] = some (.leaf nm) := by
      rw [selectRel, hlook]
    simp only [riterPaths, riter, List.map_cons, List.map_nil, FNode.name,
      hsel]
  | .dir nm ds => by
    intro hwf dn cs hlook
    simp only [wfNode, Bool.and_eq_true, decide_eq_true_eq] at hwf
    simp only [FNode.name] at hlook
    have hhead : selectRel (.dir dn cs) (nm :: ([] : List String)) =
        some (.dir nm ds) := by
      rw [selectRel, hlook]
    simp only [riterPaths, riter, List.map_cons, FNode.name, hhead]
    congr 1
    have hstep : ∀ p ∈ riterPathsList ds,
        selectRel (.dir dn cs) (nm :: p) = selectRel (.dir nm ds) p := by
      intro p hp
      have hne := riterPathsList_ne_nil ds p hp
      match p, hne with
      | [], h => exact absurd rfl h
      | r :: rs, _ => rw [selectRel, hlook]
    rw [List.map_congr_left hstep]
    exact selectPaths_list ds hwf.2 nm ds
      (fun c hc => childLookup_of_mem ds c hwf.1 hc)
theorem selectPaths_list : ∀ (sub : List FNode), wfList sub = true →
    ∀ (dn : String) (cs : List FNode),
      (∀ c ∈ sub, childLookup cs c.name = some c) →
      (riterPathsList sub).map (selectRel (.dir dn cs)) =
        (riterList sub).map some
  | [] => by
    intro _ dn cs _
    simp [riterPathsList, riterList]
  | c :: rest => by
    intro hwf dn cs hlook
    simp only [wfList, Bool.and_eq_true] at hwf
    simp only [riterPathsList, riterList, List.map_append, List.map_map]
    congr 1
    · exact selectPaths_node c hwf.1 dn cs (hlook c (by simp))
    · exact selectPaths_list rest hwf.2 dn cs
        (fun d hd => hlook d (by simp [hd]))
end

/-- **C6, amended.**  On a well-formed tree, `itermatch("*")` against a
non-root directory yields the directory itself (its relative path is
`"."`, which `"*"` matches) followed by **every** node of its recursive
iteration — descendants at all depths, since the delegated matcher's
`*` matches across `/` — not only the immediate children. -/
theorem itermatch_star_eq_riter (d : FNode) (hwf : wfNode d = true) :
    itermatchStar d = (riter d).map some := by
  unfold itermatchStar
  rw [List.filter_eq_self.mpr (fun p _ => globMatch_star (pathStr p).toList)]
  cases d with
  | leaf nm => simp [riterPaths, riter, selectRel]
  | dir nm cs =>
    simp only [wfNode, Bool.and_eq_true, decide_eq_true_eq] at hwf
    simp only [riterPaths, riter, List.map_cons]
    congr 1
    exact selectPaths_list cs hwf.2 nm cs
      (fun c hc => childLookup_of_mem cs c hwf.1 hc)

/-- **C6, counterexample.**  On the non-root directory
`d = dir "d" [dir "a" [leaf "b"]]` the claim predicts exactly the
immediate descendants (`[a]`), but `itermatch("*")` yields three nodes:
`d` itself, `a`, and the grandchild `b`. -/
theorem itermatch_star_counterexample :
    itermatchStar (FNode.dir "d" [FNode.dir "a" [FNode.leaf "b"]]) =
      [some (FNode.dir "d" [FNode.dir "a" [FNode.leaf "b"]]),
        some (FNode.dir "a" [FNode.leaf "b"]), some (FNode.leaf "b")] ∧
    childrenOf (FNode.dir "d" [FNode.dir "a" [FNode.leaf "b"]]) =
      [FNode.dir "a" [FNode.leaf "b"]] ∧
    (itermatchStar (FNode.dir "d" [FNode.dir "a" [FNode.leaf "b"]])).length ≠
      (childrenOf (FNode.dir "d" [FNode.dir "a" [FNode.leaf "b"]])).length :=
  ⟨rfl, rfl, by decide⟩

/-- Witness for C6's amended theorem on the same concrete tree. -/
theorem itermatch_star_eq_riter_witness :
    itermatchStar (FNode.dir "d" [FNode.dir "a" [FNode.leaf "b"]]) =
      (riter (FNode.dir "d" [FNode.dir "a" [FNode.leaf "b"]])).map some :=
  itermatch_star_eq_riter (FNode.dir "d" [FNode.dir "a" [FNode.leaf "b"]])
    (by decide)

/-! ## Claim C7 — `Cramfs.close` and context-manager exit
(`pycramfs/__init__.py`) -/

/-- The ownership-relevant state of a `Cramfs` object: the `closefd`
flag given at construction and whether the underlying parent stream
has been closed. -/
structure CramfsState where
  closefd : Bool
  streamClosed : Bool

/-- `Cramfs.close` (lines 70-71): `self._fd.close()`.  For a
`from_fd`-constructed image `_fd` is the `BoundedSubStream`, a
subclass of `typing.IO[AnyStr]`; `typing.IO` defines `close` with a
`pass` body, normal MRO attribute lookup finds that method, and
`BoundedSubStream.__getattr__` (which only fires when normal lookup
fails) never forwards the call to the parent stream.  The call is
therefore a no-op and the parent stream stays open. -/
def cramfsClose (s : CramfsState) : CramfsState := s

/-- `Cramfs.__exit__` (lines 37-39): call `self.close()` only when
`closefd` is set (and `close` itself is the no-op above). -/
def cramfsExit (s : CramfsState) : CramfsState :=
  if s.closefd then cramfsClose s else s

/-- **C7 (confirmed).**  For every image constructed over a
caller-provided stream with `closefd = false`, the image never closes
that underlying stream: neither a direct `close()` call nor
context-manager exit changes the stream's open state.  (In the program
this holds for *every* image: `BoundedSubStream.close` resolves to
`typing.IO.close`, whose body is `pass`, so `Cramfs.close` never
reaches the parent stream at all.) -/
theorem cramfs_never_closes_stream (s : CramfsState)
    (_h : s.closefd = false) :
    (cramfsClose s).streamClosed = s.streamClosed ∧
    (cramfsExit s).streamClosed = s.streamClosed := by
  refine ⟨rfl, ?_⟩
  unfold cramfsExit cramfsClose
  by_cases hc : s.closefd <;> simp [hc]

/-- Witness for C7 at a concrete unowned, open image state. -/
theorem cramfs_never_closes_stream_witness :
    (cramfsClose ⟨false, false⟩).streamClosed =
      (⟨false, false⟩ : CramfsState).streamClosed ∧
    (cramfsExit ⟨false, false⟩).streamClosed =
      (⟨false, false⟩ : CramfsState).streamClosed :=
  cramfs_never_closes_stream ⟨false, false⟩ rfl

/-! ## `find_superblocks` (`pycramfs/util.py` lines 65-96) -/

/-- `bytes.find(pattern)`: lowest index of the pattern, if present. -/
def findSub : List Nat → List Nat → Option Nat
  | l, pat =>
    if pat.isPrefixOf l then some 0
    else
      match l with
      | [] => none
      | _ :: l1 => (findSub l1 pat).map (· + 1)

/-- The chunked scanning loop (lines 81-88), fuelled: read `size`-byte
chunks until exhaustion; prefix each chunk with the previous chunk's
3-byte carry; record the **first** magic hit of each combined block at
its absolute offset (`index + count*size - len(prev_block)`, never
underflowing since a carry only exists from the second chunk on). -/
def scanLoopF : Nat → List Nat → Nat → Nat → List Nat → List Nat → List Nat
  | 0, _, _, _, _, acc => acc
  | fuel + 1, data, size, count, prev, acc =>
    let next := (data.drop (count * size)).take size
    if next.isEmpty then acc
    else
      let acc1 :=
        match findSub (prev ++ next) MAGIC_BYTES with
        | some i => acc ++ [i + count * size - prev.length]
        | none => acc
      scanLoopF fuel data size (count + 1) (next.drop (next.length - 3)) acc1

/-- The recorded hit offsets, deduplicated and sorted
(`sorted(indexes)` over the Python set).  `data.length + 1` chunks
always suffice: every executed iteration consumes at least one byte. -/
def scanIndexes (data : List Nat) (size : Nat) : List Nat :=
  ((scanLoopF (data.length + 1) data size 0 [] []).dedup).insertionSort (· ≤ ·)

/-- `Super.from_fd` at offset `o`, reduced to the two fields the scanner
inspects: the little-endian u32 `magic` and the raw 16 `_signature`
bytes at offset 16.  `none` when fewer than 64 bytes remain (ctypes
raises `ValueError` on a short buffer, aborting the whole scan). -/
def parseSuperAt (data : List Nat) (o : Nat) : Option (Nat × List Nat) :=
  if o + 64 ≤ data.length then
    let sb := (data.drop o).take 64
    some (le32 (sb.getD 0 0) (sb.getD 1 0) (sb.getD 2 0) (sb.getD 3 0),
      (sb.drop 16).take 16)
  else none

/-- The verification pass (lines 89-95): for each recorded offset in
sorted order, parse a superblock there and keep the offset only if the
magic matches and the NUL-truncated raw `_signature` field equals
`b"Compressed ROMFS"`. -/
def secondPass (data : List Nat) : List Nat → Option (List Nat)
  | [] => some []
  | o :: os =>
    match parseSuperAt data o with
    | none => none
    | some ms =>
      (secondPass data os).map (fun r =>
        if ms.1 = MAGIC ∧ cCharValue ms.2 = SIGNATURE_BYTES then o :: r
        else r)

/-- `find_superblocks` over an in-memory buffer, returning the accepted
offsets (each Python result entry is the parsed superblock fields plus
this offset). -/
def find_superblocks (data : List Nat) (size : Nat) : Option (List Nat) :=
  secondPass data (scanIndexes data size)

/-! ## Claim C5 -/

/-- Claim side: does the 4-byte little-endian magic occur at `o`? -/
def magicAt (data : List Nat) (o : Nat) : Bool :=
  decide ((data.drop o).take 4 = MAGIC_BYTES)

/-- Claim side: does the superblock parsed at `o` pass the
magic/raw-signature test? -/
def validSuperAt (data : List Nat) (o : Nat) : Bool :=
  match parseSuperAt data o with
  | none => false
  | some ms => decide (ms.1 = MAGIC ∧ cCharValue ms.2 = SIGNATURE_BYTES)

/-- Claim side: every occurrence of the magic in the buffer whose
parsed superblock passes the test. -/
def claimOccurrences (data : List Nat) : List Nat :=
  (List.range data.length).filter (fun o => magicAt data o && validSuperAt data o)

/-- Spec side of the amended claim: the first magic hit of each scanned
block (a chunk prefixed by the previous chunk's 3-byte carry), in
chunk order. -/
def specHitsF : Nat → List Nat → Nat → Nat → List Nat → List Nat
  | 0, _, _, _, _ => []
  | fuel + 1, data, size, count, prev =>
    let next := (data.drop (count * size)).take size
    if next.isEmpty then []
    else
      (match findSub (prev ++ next) MAGIC_BYTES with
       | some i => [i + count * size - prev.length]
       | none => []) ++
        specHitsF fuel data size (count + 1) (next.drop (next.length - 3))

def specHits (data : List Nat) (size : Nat) : List Nat :=
  specHitsF (data.length + 1) data size 0 []

/-- The accumulator loop computes exactly the per-block first hits. -/
theorem scanLoopF_eq (data : List Nat) (size : Nat) :
    ∀ (fuel count : Nat) (prev acc : List Nat),
      scanLoopF fuel data size count prev acc =
        acc ++ specHitsF fuel data size count prev := by
  intro fuel
  induction fuel with
  | zero => intro count prev acc; simp [scanLoopF, specHitsF]
  | succ fuel ih =>
    intro count prev acc
    simp only [scanLoopF, specHitsF]
    by_cases hnext : ((data.drop (count * size)).take size).isEmpty
    · simp [hnext]
    · simp only [hnext, Bool.false_eq_true, if_false]
      cases hfind : findSub (prev ++ (data.drop (count * size)).take size)
          MAGIC_BYTES with
      | none => simp only [hfind, ih, List.nil_append]
      | some i => simp only [hfind, ih, List.append_assoc, List.singleton_append,
          List.cons_append, List.nil_append]

/-- A successful verification pass keeps exactly the offsets passing
the superblock test, in order. -/
theorem secondPass_eq_filter (data : List Nat) :
    ∀ (l r : List Nat), secondPass data l = some r →
      r = l.filter (fun o => validSuperAt data o) := by
  intro l
  induction l with
  | nil =>
    intro r h
    simp only [secondPass, Option.some.injEq] at h
    simp [← h]
  | cons o os ih =>
    intro r h
    simp only [secondPass] at h
    cases hp : parseSuperAt data o with
    | none => rw [hp] at h; cases h
    | some ms =>
      rw [hp] at h
      cases hs : secondPass data os with
      | none => rw [hs] at h; cases h
      | some r1 =>
        rw [hs] at h
        have h2 : (if ms.1 = MAGIC ∧ cCharValue ms.2 = SIGNATURE_BYTES
            then o :: r1 else r1) = r := by
          simpa using h
        have hv : validSuperAt data o =
            decide (ms.1 = MAGIC ∧ cCharValue ms.2 = SIGNATURE_BYTES) := by
          simp [validSuperAt, hp]
        rw [List.filter_cons, hv, ← ih r1 hs, ← h2]
        by_cases hcond : ms.1 = MAGIC ∧ cCharValue ms.2 = SIGNATURE_BYTES
        · rw [if_pos hcond, if_pos (by simp [hcond])]
        · rw [if_neg hcond, if_neg (by simp [hcond])]

/-- **C5, amended.**  `find_superblocks` returns, sorted ascending, one
entry for the **first** occurrence of the magic within each scanned
block (a chunk prefixed by the previous chunk's 3-byte carry) whose
parsed superblock has the right magic and whose NUL-truncated raw
signature field equals `b"Compressed ROMFS"` byte-for-byte; further
occurrences inside the same scanned block are missed (see the
counterexample).  Whenever it returns a result, that result is sorted
ascending and every entry passes the magic/raw-signature test. -/
theorem find_superblocks_spec (data : List Nat) (size : Nat) :
    find_superblocks data size =
      secondPass data (((specHits data size).dedup).insertionSort (· ≤ ·)) ∧
    ∀ r, find_superblocks data size = some r →
      r.Sorted (· ≤ ·) ∧ ∀ o ∈ r, validSuperAt data o = true := by
  have heq : scanIndexes data size =
      ((specHits data size).dedup).insertionSort (· ≤ ·) := by
    unfold scanIndexes specHits
    rw [scanLoopF_eq data size (data.length + 1) 0 [] []]
    rfl
  constructor
  · unfold find_superblocks
    rw [heq]
  · intro r hr
    unfold find_superblocks at hr
    rw [heq] at hr
    have hfil := secondPass_eq_filter data _ r hr
    constructor
    · rw [hfil]
      exact List.Pairwise.filter _
        (List.sorted_insertionSort (· ≤ ·) ((specHits data size).dedup))
    · intro o ho
      rw [hfil] at ho
      exact (List.mem_filter.mp ho).2

set_option maxRecDepth 40000 in
/-- **C5, counterexample.**  A 128-byte buffer holding two 64-byte
regions that both parse as acceptable superblocks (magic + signature),
scanned with a chunk size larger than the buffer: the claim predicts
entries at offsets 0 and 64, but `bytes.find` records only the first
hit per scanned block, so the scanner returns only offset 0. -/
theorem find_superblocks_counterexample :
    claimOccurrences
        ((MAGIC_BYTES ++ List.replicate 12 0 ++ SIGNATURE_BYTES ++
          List.replicate 32 0) ++
         (MAGIC_BYTES ++ List.replicate 12 0 ++ SIGNATURE_BYTES ++
          List.replicate 32 0)) = [0, 64] ∧
    find_superblocks
        ((MAGIC_BYTES ++ List.replicate 12 0 ++ SIGNATURE_BYTES ++
          List.replicate 32 0) ++
         (MAGIC_BYTES ++ List.replicate 12 0 ++ SIGNATURE_BYTES ++
          List.replicate 32 0)) 1024 = some [0] := by decide

set_option maxRecDepth 40000 in
/-- Witness for C5's amended theorem: on the two-superblock buffer the
returned result `[0]` is sorted and every entry passes the test. -/
theorem find_superblocks_spec_witness :
    (([0] : List Nat).Sorted (· ≤ ·) ∧
      ∀ o ∈ ([0] : List Nat), validSuperAt
        ((MAGIC_BYTES ++ List.replicate 12 0 ++ SIGNATURE_BYTES ++
          List.replicate 32 0) ++
         (MAGIC_BYTES ++ List.replicate 12 0 ++ SIGNATURE_BYTES ++
          List.replicate 32 0)) o = true) :=
  (find_superblocks_spec
    ((MAGIC_BYTES ++ List.replicate 12 0 ++ SIGNATURE_BYTES ++
      List.replicate 32 0) ++
     (MAGIC_BYTES ++ List.replicate 12 0 ++ SIGNATURE_BYTES ++
      List.replicate 32 0)) 1024).2 [0] (by decide)

end Pycramfs
